import Mathlib

/-!
Shallow embedding of the minidkvs core (pkg/minidkvs/core.go and
pkg/minidkvs/memory.go): a single-node key-value store whose operations
are serialized through one message loop, with versioned values and a
conflict rule applied to deltas received from other replicas.

Modelling conventions:
* `uuid.UUID` identities are compared in the Go source only through
  `.String()` (lexicographic byte comparison of the canonical hex form),
  so node identities are modelled as `String` with its lexicographic order.
* Go `int`/`int64` fields are modelled as `Int`; the one place the source
  performs arithmetic on them (`value.Version + 1` in `newValue`) is wrapped
  with two's-complement 64-bit semantics via `wrap64`.
* Go `error` values are modelled as `Option String` (`none` = nil error);
  fallible operations return `Except String _`.
* The `Storage` interface is modelled as a map `String → Option Value`
  together with per-operation error oracles saying which calls fail; the
  `MemoryStorage` backend of memory.go is the instance whose oracles never
  fire. Every storage call a handler makes is also recorded in a trace of
  `StorCall`s so that "no write happened" claims are about the calls made,
  not just the resulting state.
-/

namespace Minidkvs

/-- Value (core.go:26-32): wrapper for all values in the database, carrying
the synchronization metadata. -/
structure Value where
  Version : Int
  ModifiedBy : String
  ModifiedAt : Int
  Deleted : Bool
  Content : List Nat
deriving DecidableEq, Repr

/-- Delta (core.go:36-39): a `(key, value)` pair received from a peer. -/
structure Delta where
  Key : String
  value : Value
deriving DecidableEq, Repr

/-- GetResult (core.go:43-46): result of a database Get. `Value` is the Go
zero value (nil slice, modelled `[]`) whenever `HasValue` is false. -/
structure GetResult where
  HasValue : Bool
  Value : List Nat
deriving DecidableEq, Repr

/-- TryGet (core.go:49-52): a GetResult together with the error object. -/
structure TryGet where
  Result : GetResult
  Error : Option String
deriving DecidableEq, Repr

/-- One call made against the Storage interface, for the call trace. -/
inductive StorCall where
  | getCall (key : String)
  | setCall (key : String) (v : Value)
deriving DecidableEq, Repr

/-- A Storage backend (core.go:10-15): the current key→value mapping plus
oracles telling which Get/Set calls fail with which error. -/
structure Stor where
  data : String → Option Value
  getErr : String → Option String
  setErr : String → Value → Option String

/-- Storage.Get: fails when the oracle says so, otherwise returns the
current mapping for the key (memory.go:13-19 semantics on success). -/
def storGet (s : Stor) (key : String) : Except String (Option Value) :=
  match s.getErr key with
  | some e => .error e
  | none => .ok (s.data key)

/-- Storage.Set: fails when the oracle says so, otherwise fully replaces the
value stored for the key (memory.go:22-25 semantics on success). -/
def storSet (s : Stor) (key : String) (v : Value) : Except String Stor :=
  match s.setErr key v with
  | some e => .error e
  | none => .ok { s with data := fun k => if k = key then some v else s.data k }

/-- MemoryStorage (memory.go:7-10): a pure in-memory map whose operations
never fail. -/
def memStor (m : String → Option Value) : Stor :=
  { data := m, getErr := fun _ => none, setErr := fun _ _ => none }

/-- Database (core.go:18-22): the storage it owns and the node identity read
once at construction. -/
structure Database where
  storage : Stor
  nodeID : String

/-- A freshly constructed in-memory database (NewMemoryDatabase,
memory.go:55-61): empty map, given node identity. -/
def freshDb (nid : String) : Database :=
  { storage := memStor (fun _ => none), nodeID := nid }

/-- Two's-complement wraparound of Go `int` (64-bit) arithmetic. -/
def wrap64 (n : Int) : Int :=
  (n + 2 ^ 63) % 2 ^ 64 - 2 ^ 63

/-- newValue (core.go:74-94): wrap the given bytes in a Value, reading the
existing value to derive the version (`existing.Version + 1`, or 1 when the
key is absent), stamping this node's identity and the current time. Returns
the storage calls made alongside the result. -/
def newValue (db : Database) (now : Int) (key : String) (bytes : List Nat)
    (deleted : Bool) : Except String Value × List StorCall :=
  match storGet db.storage key with
  | .error e => (.error e, [.getCall key])
  | .ok v =>
    let version : Int :=
      match v with
      | none => 1
      | some value => wrap64 (value.Version + 1)
    (.ok { Version := version, ModifiedBy := db.nodeID, ModifiedAt := now,
           Deleted := deleted, Content := bytes }, [.getCall key])

/-- Lexicographic strict comparison of character lists by character code.
Go's `<` on strings compares byte-wise; on the ASCII identity strings
produced by `uuid.UUID.String()` the byte order and the character-code
order coincide. -/
def lexLt : List Char → List Char → Bool
  | _, [] => false
  | [], _ :: _ => true
  | a :: as, b :: bs =>
    if a.toNat < b.toNat then true
    else if b.toNat < a.toNat then false
    else lexLt as bs

/-- Go string `<` on the two identity strings. -/
def strLtB (a b : String) : Bool :=
  lexLt a.data b.data

/-- existingIsConflictWinner (core.go:98-103): on an exact `ModifiedAt` tie
the existing value wins iff its `ModifiedBy` string sorts lexicographically
smaller; otherwise the existing value wins iff its `ModifiedAt` is strictly
larger. -/
def existingIsConflictWinner (existing new : Value) : Bool :=
  if existing.ModifiedAt = new.ModifiedAt then
    strLtB existing.ModifiedBy new.ModifiedBy
  else
    decide (existing.ModifiedAt > new.ModifiedAt)

/-- handleReceive (core.go:97-115): read the existing value for the delta's
key; when it is absent, or when `existingIsConflictWinner existing incoming`
holds, write the incoming value via Storage.Set, otherwise do nothing.
Returns the value sent on the error channel, the database afterwards, and
the storage calls made. -/
def handleReceive (db : Database) (delta : Delta) :
    Option String × Database × List StorCall :=
  match storGet db.storage delta.Key with
  | .error e => (some e, db, [.getCall delta.Key])
  | .ok none =>
    match storSet db.storage delta.Key delta.value with
    | .error e => (some e, db, [.getCall delta.Key, .setCall delta.Key delta.value])
    | .ok s => (none, { db with storage := s },
        [.getCall delta.Key, .setCall delta.Key delta.value])
  | .ok (some existing) =>
    if existingIsConflictWinner existing delta.value then
      match storSet db.storage delta.Key delta.value with
      | .error e => (some e, db, [.getCall delta.Key, .setCall delta.Key delta.value])
      | .ok s => (none, { db with storage := s },
          [.getCall delta.Key, .setCall delta.Key delta.value])
    else
      (none, db, [.getCall delta.Key])

/-- The `set` turn of dbMessageLoop (core.go:237-244): build the new value
(an incremented-version, non-deleted wrapper of the bytes) and store it;
any error from the intermediate read or the write is sent back. -/
def setHandler (db : Database) (now : Int) (key : String) (bytes : List Nat) :
    Option String × Database × List StorCall :=
  match newValue db now key bytes false with
  | (.error e, calls) => (some e, db, calls)
  | (.ok value, calls) =>
    match storSet db.storage key value with
    | .error e => (some e, db, calls ++ [.setCall key value])
    | .ok s => (none, { db with storage := s }, calls ++ [.setCall key value])

/-- The `get` turn of dbMessageLoop (core.go:246-260): read the stored
value; a read error is sent back verbatim (with the zero GetResult); an
absent or tombstoned value yields `HasValue := false` with no error;
otherwise the stored content is returned. -/
def getHandler (db : Database) (key : String) :
    TryGet × Database × List StorCall :=
  match storGet db.storage key with
  | .error e =>
    ({ Result := { HasValue := false, Value := [] }, Error := some e }, db,
      [.getCall key])
  | .ok none =>
    ({ Result := { HasValue := false, Value := [] }, Error := none }, db,
      [.getCall key])
  | .ok (some value) =>
    if value.Deleted then
      ({ Result := { HasValue := false, Value := [] }, Error := none }, db,
        [.getCall key])
    else
      ({ Result := { HasValue := true, Value := value.Content }, Error := none },
        db, [.getCall key])

/-- The `delete` turn of dbMessageLoop (core.go:262-269): identical to the
set turn except the new value is a tombstone (`deleted := true`) wrapping
the nil payload. -/
def deleteHandler (db : Database) (now : Int) (key : String) :
    Option String × Database × List StorCall :=
  match newValue db now key [] true with
  | (.error e, calls) => (some e, db, calls)
  | (.ok value, calls) =>
    match storSet db.storage key value with
    | .error e => (some e, db, calls ++ [.setCall key value])
    | .ok s => (none, { db with storage := s }, calls ++ [.setCall key value])

/-- The message variants carried on the Database's channel
(core.go:159-196). -/
inductive DbMsg where
  | receiveMsg (delta : Delta)
  | setMsg (key : String) (value : List Nat)
  | getMsg (key : String)
  | deleteMsg (key : String)
  | closeMsg
deriving DecidableEq, Repr

/-- What a turn of the loop sends back to the caller: the error-channel
payload, a TryGet for gets, or nothing (the close arm sends no reply). -/
inductive Reply where
  | errReply (e : Option String)
  | getReply (t : TryGet)
  | noReply
deriving DecidableEq, Repr

/-- One turn of dbMessageLoop's dispatch (core.go:271-287), processing a
single dequeued message at wall-clock time `now`. The `default` arm of the
Go switch executes `break`, which in Go exits only the switch statement,
so a close message performs no action and the loop goes on to the next
message. -/
def dbStep (db : Database) (now : Int) (m : DbMsg) :
    Reply × Database × List StorCall :=
  match m with
  | .receiveMsg delta =>
    match handleReceive db delta with
    | (e, db2, calls) => (.errReply e, db2, calls)
  | .setMsg key value =>
    match setHandler db now key value with
    | (e, db2, calls) => (.errReply e, db2, calls)
  | .getMsg key =>
    match getHandler db key with
    | (t, db2, calls) => (.getReply t, db2, calls)
  | .deleteMsg key =>
    match deleteHandler db now key with
    | (e, db2, calls) => (.errReply e, db2, calls)
  | .closeMsg => (.noReply, db, [])

/-- dbMessageLoop (core.go:271-287) run over a finite arrival sequence of
messages, each paired with the wall-clock time at which its turn executes:
every message is dispatched in order and every turn's reply is collected. -/
def dbMessageLoopRun (db : Database) (msgs : List (Int × DbMsg)) :
    Database × List Reply :=
  match msgs with
  | [] => (db, [])
  | (now, m) :: rest =>
    let r := dbStep db now m
    let tail := dbMessageLoopRun r.2.1 rest
    (tail.1, r.1 :: tail.2)

/-- Fold ReceiveRemote over a list of deltas, keeping only the resulting
database (the per-call error replies are discarded). -/
def applyReceives (db : Database) (ds : List Delta) : Database :=
  ds.foldl (fun d δ => (handleReceive d δ).2.1) db

/-- The per-key effect of one handleReceive on a never-failing storage:
an absent slot takes the incoming value, an occupied slot is overwritten
exactly when `existingIsConflictWinner existing incoming` holds. -/
def receiveStep (existing : Option Value) (incoming : Value) : Option Value :=
  match existing with
  | none => some incoming
  | some e => if existingIsConflictWinner e incoming then some incoming else some e

/-- `receiveStep` folded over a list of incoming values. -/
def foldRecv (e : Option Value) (vs : List Value) : Option Value :=
  vs.foldl receiveStep e

/-- Iterated local Set writes to one key (successive `set` turns of the
loop), used to state version monotonicity. -/
def iterSets (db : Database) (now : Int) (key : String) (bytes : List Nat) :
    Nat → Database
  | 0 => db
  | n + 1 => (setHandler (iterSets db now key bytes n) now key bytes).2.1

/-! ### Basic lemmas about the handlers -/

/-- The value a successful `newValue` produces, as a named abbreviation for
use in lemma statements. -/
def mkValue (db : Database) (now : Int) (key : String) (bytes : List Nat)
    (del : Bool) : Value :=
  { Version := (match db.storage.data key with
                | none => 1
                | some old => wrap64 (old.Version + 1)),
    ModifiedBy := db.nodeID, ModifiedAt := now,
    Deleted := del, Content := bytes }

/-- Unfolding of a successful `newValue`: the read must have succeeded, and
the produced value is fully determined by the stored value's version. -/
theorem newValue_ok {db : Database} {now : Int} {key : String} {bytes : List Nat}
    {del : Bool} {v : Value} {calls : List StorCall}
    (h : newValue db now key bytes del = (.ok v, calls)) :
    db.storage.getErr key = none ∧
    v = mkValue db now key bytes del ∧
    calls = [.getCall key] := by
  unfold newValue storGet at h
  cases hg : db.storage.getErr key <;> rw [hg] at h
  · simp only [Prod.mk.injEq, Except.ok.injEq] at h
    exact ⟨rfl, h.1.symm, h.2.symm⟩
  · simp at h

/-- `newValue` on a key whose read succeeds. -/
theorem newValue_of_getErr_none {db : Database} {now : Int} {key : String}
    {bytes : List Nat} {del : Bool} (hg : db.storage.getErr key = none) :
    newValue db now key bytes del = (.ok (mkValue db now key bytes del), [.getCall key]) := by
  simp [newValue, storGet, mkValue, hg]

/-- Unfolding of a successful `storSet`: the oracle did not fire and the
mapping is updated exactly at the written key. -/
theorem storSet_ok {s : Stor} {key : String} {v : Value} {s2 : Stor}
    (h : storSet s key v = .ok s2) :
    s.setErr key v = none ∧
    s2 = { s with data := fun k => if k = key then some v else s.data k } := by
  unfold storSet at h
  cases hs : s.setErr key v <;> rw [hs] at h
  · simp only [Except.ok.injEq] at h
    exact ⟨rfl, h.symm⟩
  · simp at h

/-! ### Claim theorems -/

/-- Claim C1 (code_bug evaluation): with a value whose `ModifiedAt` is 2
stored under `"k"`, receiving a delta whose `ModifiedAt` is 1 makes the code
overwrite the store with the *older* incoming value (a Storage.Set call is
made), and symmetrically a strictly newer incoming delta is discarded and
the older stored value kept — the opposite of the claimed
larger-`modifiedAt`-wins rule, because core.go:110 writes the delta exactly
when `existingIsConflictWinner` holds. -/
theorem handleReceive_stores_older_value :
    (handleReceive
      { storage := memStor
          (fun k => if k = "k" then some ⟨1, "n2", 2, false, [2]⟩ else none),
        nodeID := "n" }
      ⟨"k", ⟨1, "n1", 1, false, [1]⟩⟩).2.1.storage.data "k"
      = some ⟨1, "n1", 1, false, [1]⟩ ∧
    (handleReceive
      { storage := memStor
          (fun k => if k = "k" then some ⟨1, "n2", 2, false, [2]⟩ else none),
        nodeID := "n" }
      ⟨"k", ⟨1, "n1", 1, false, [1]⟩⟩).2.2
      = [.getCall "k", .setCall "k" ⟨1, "n1", 1, false, [1]⟩] ∧
    (handleReceive
      { storage := memStor
          (fun k => if k = "k" then some ⟨1, "n1", 1, false, [1]⟩ else none),
        nodeID := "n" }
      ⟨"k", ⟨1, "n2", 2, false, [2]⟩⟩).2.1.storage.data "k"
      = some ⟨1, "n1", 1, false, [1]⟩ ∧
    (handleReceive
      { storage := memStor
          (fun k => if k = "k" then some ⟨1, "n1", 1, false, [1]⟩ else none),
        nodeID := "n" }
      ⟨"k", ⟨1, "n2", 2, false, [2]⟩⟩).2.2
      = [.getCall "k"] := by
  exact ⟨by decide, rfl, by decide, rfl⟩

/-- Claim C2 (code_bug evaluation): on an exact `ModifiedAt` tie between
identities `"a"` and `"b"`, both receive orders leave the value written by
the lexicographically *larger* identity `"b"` in the store, the opposite of
the claimed smaller-identity-wins tie-break: core.go:110 writes the delta
exactly when the existing value is the tie-break winner. -/
theorem handleReceive_tie_keeps_larger_identity :
    (handleReceive
      { storage := memStor
          (fun k => if k = "k" then some ⟨1, "a", 5, false, [1]⟩ else none),
        nodeID := "n" }
      ⟨"k", ⟨1, "b", 5, false, [2]⟩⟩).2.1.storage.data "k"
      = some ⟨1, "b", 5, false, [2]⟩ ∧
    (handleReceive
      { storage := memStor
          (fun k => if k = "k" then some ⟨1, "b", 5, false, [2]⟩ else none),
        nodeID := "n" }
      ⟨"k", ⟨1, "a", 5, false, [1]⟩⟩).2.1.storage.data "k"
      = some ⟨1, "b", 5, false, [2]⟩ ∧
    strLtB "a" "b" = true := by
  exact ⟨by decide, by decide, by decide⟩

/-- Claim C3 (code_bug evaluation): a Close message does not terminate the
processing loop — a Set request arriving after Close is still executed and
its effect reaches the store, so `Running → Closed` never happens. In the Go
source the `break` in the switch's default arm (core.go:284) exits only the
switch statement, not the enclosing `for` loop. -/
theorem close_does_not_stop_loop :
    (dbMessageLoopRun (freshDb "n")
        [(0, .closeMsg), (1, .setMsg "k" [5])]).1.storage.data "k"
      = some ⟨1, "n", 1, false, [5]⟩ ∧
    (dbMessageLoopRun (freshDb "n")
        [(0, .closeMsg), (1, .setMsg "k" [5])]).2
      = [.noReply, .errReply none] := by
  exact ⟨by decide, rfl⟩

/-- Claim C9: when the Storage read inside a Set or Delete turn fails, the
error is returned to the caller unchanged, no Storage.Set call is made (the
call trace holds only the read), and the database — in particular the stored
mapping — is exactly what it was. -/
theorem write_read_error_no_effect (db : Database) (now : Int) (key : String)
    (bytes : List Nat) (e : String) (h : db.storage.getErr key = some e) :
    setHandler db now key bytes = (some e, db, [.getCall key]) ∧
    deleteHandler db now key = (some e, db, [.getCall key]) := by
  constructor <;> simp [setHandler, deleteHandler, newValue, storGet, h]

/-- Claim C9 witness: a concrete database whose read on `"k"` fails with
`"boom"` leaves both write operations without effect. -/
theorem write_read_error_no_effect_witness :
    setHandler
      { storage := { data := fun _ => none,
                     getErr := fun k => if k = "k" then some "boom" else none,
                     setErr := fun _ _ => none }, nodeID := "n" } 0 "k" [1]
      = (some "boom",
         { storage := { data := fun _ => none,
                        getErr := fun k => if k = "k" then some "boom" else none,
                        setErr := fun _ _ => none }, nodeID := "n" },
         [.getCall "k"]) ∧
    deleteHandler
      { storage := { data := fun _ => none,
                     getErr := fun k => if k = "k" then some "boom" else none,
                     setErr := fun _ _ => none }, nodeID := "n" } 0 "k"
      = (some "boom",
         { storage := { data := fun _ => none,
                        getErr := fun k => if k = "k" then some "boom" else none,
                        setErr := fun _ _ => none }, nodeID := "n" },
         [.getCall "k"]) :=
  write_read_error_no_effect _ 0 "k" [1] "boom" rfl

/-- Claim C10: a Get turn never modifies anything — the database (hence the
whole stored mapping, for every key) is returned unchanged and the only
Storage call made is the read. -/
theorem get_preserves_storage (db : Database) (key : String) :
    (getHandler db key).2.1 = db ∧ (getHandler db key).2.2 = [.getCall key] := by
  unfold getHandler storGet
  cases db.storage.getErr key <;> simp
  cases db.storage.data key <;> simp
  split <;> simp

/-- Claim C8: when the stored value for a key is absent or tombstoned, the
Get turn answers `HasValue := false` with a nil error; and when the Storage
read fails, its error is handed to the caller unchanged. -/
theorem get_absent_or_tombstone_no_error (db : Database) (key : String) :
    (db.storage.getErr key = none →
      (db.storage.data key = none →
        getHandler db key =
          ({ Result := { HasValue := false, Value := [] }, Error := none }, db,
            [.getCall key])) ∧
      (∀ v, db.storage.data key = some v → v.Deleted = true →
        getHandler db key =
          ({ Result := { HasValue := false, Value := [] }, Error := none }, db,
            [.getCall key]))) ∧
    (∀ e, db.storage.getErr key = some e →
      getHandler db key =
        ({ Result := { HasValue := false, Value := [] }, Error := some e }, db,
          [.getCall key])) := by
  refine ⟨fun hg => ⟨fun hd => ?_, fun v hd hdel => ?_⟩, fun e hg => ?_⟩
  · simp [getHandler, storGet, hg, hd]
  · simp [getHandler, storGet, hg, hd, hdel]
  · simp [getHandler, storGet, hg]

/-- Claim C8 witness: a concrete tombstoned key and a concrete failing read
both answer `HasValue := false`, the first with no error, the second with
the backend's error. -/
theorem get_absent_or_tombstone_no_error_witness :
    getHandler
      { storage := { data := fun k => if k = "k" then some ⟨1, "n", 0, true, []⟩ else none,
                     getErr := fun _ => none, setErr := fun _ _ => none },
        nodeID := "n" } "k"
      = ({ Result := { HasValue := false, Value := [] }, Error := none },
         { storage := { data := fun k => if k = "k" then some ⟨1, "n", 0, true, []⟩ else none,
                        getErr := fun _ => none, setErr := fun _ _ => none },
           nodeID := "n" }, [.getCall "k"]) ∧
    getHandler
      { storage := { data := fun _ => none,
                     getErr := fun k => if k = "k" then some "boom" else none,
                     setErr := fun _ _ => none }, nodeID := "n" } "k"
      = ({ Result := { HasValue := false, Value := [] }, Error := some "boom" },
         { storage := { data := fun _ => none,
                        getErr := fun k => if k = "k" then some "boom" else none,
                        setErr := fun _ _ => none }, nodeID := "n" },
         [.getCall "k"]) :=
  ⟨((get_absent_or_tombstone_no_error _ "k").1 rfl).2 ⟨1, "n", 0, true, []⟩ rfl rfl,
   (get_absent_or_tombstone_no_error _ "k").2 "boom" rfl⟩

/-- Claim C5: whenever a Set turn succeeds, an immediately following Get
turn finds the key with exactly the written bytes (the freshly stored value
is not deleted and carries the payload verbatim). -/
theorem set_then_get_roundtrip (db : Database) (now : Int) (key : String)
    (bytes : List Nat) (db2 : Database) (calls : List StorCall)
    (h : setHandler db now key bytes = (none, db2, calls)) :
    getHandler db2 key =
      ({ Result := { HasValue := true, Value := bytes }, Error := none }, db2,
        [.getCall key]) := by
  unfold setHandler at h
  rcases hnv : newValue db now key bytes false with ⟨res, calls1⟩
  rw [hnv] at h
  cases res with
  | error e => simp at h
  | ok value =>
    simp only at h
    rcases hss : storSet db.storage key value with e2 | s <;> rw [hss] at h
    · simp at h
    · simp only [Prod.mk.injEq] at h
      obtain ⟨-, hdb2, -⟩ := h
      obtain ⟨hg, hv, -⟩ := newValue_ok hnv
      obtain ⟨-, hs2⟩ := storSet_ok hss
      subst hdb2 hs2
      simp [getHandler, storGet, hg, hv, mkValue]

/-- Claim C5 witness: on a fresh in-memory database, setting `"k"` to `[5]`
and then getting `"k"` returns exactly `[5]`. -/
theorem set_then_get_roundtrip_witness :
    getHandler (setHandler (freshDb "n") 0 "k" [5]).2.1 "k"
      = ({ Result := { HasValue := true, Value := [5] }, Error := none },
         (setHandler (freshDb "n") 0 "k" [5]).2.1, [.getCall "k"]) :=
  set_then_get_roundtrip (freshDb "n") 0 "k" [5]
    (setHandler (freshDb "n") 0 "k" [5]).2.1
    (setHandler (freshDb "n") 0 "k" [5]).2.2 rfl

/-- Claim C6: on a backend whose operations on the key do not fail, a Delete
turn always succeeds (whether or not the key exists), stores a tombstone
(`Deleted := true`) carrying this node's identity, and an immediately
following Get turn answers `HasValue := false` with no error. -/
theorem delete_then_get_absent (db : Database) (now : Int) (key : String)
    (hg : db.storage.getErr key = none)
    (hs : ∀ v, db.storage.setErr key v = none) :
    (deleteHandler db now key).1 = none ∧
    (∃ v, (deleteHandler db now key).2.1.storage.data key = some v ∧
      v.Deleted = true ∧ v.ModifiedBy = db.nodeID) ∧
    (getHandler (deleteHandler db now key).2.1 key).1 =
      { Result := { HasValue := false, Value := [] }, Error := none } := by
  have hdel : deleteHandler db now key =
      (none,
       { db with storage :=
          { db.storage with data := fun k =>
              if k = key then some (mkValue db now key [] true)
              else db.storage.data k } },
       [.getCall key, .setCall key (mkValue db now key [] true)]) := by
    rw [deleteHandler, newValue_of_getErr_none hg]
    simp [storSet, hs]
  rw [hdel]
  refine ⟨rfl, ⟨mkValue db now key [] true, by simp, rfl, rfl⟩, ?_⟩
  simp [getHandler, storGet, hg, mkValue]

/-- Claim C6 witness: deleting the never-set key `"k"` on a fresh in-memory
database succeeds, stores a tombstone by node `"n"`, and a following Get
finds nothing. -/
theorem delete_then_get_absent_witness :
    (deleteHandler (freshDb "n") 3 "k").1 = none ∧
    (∃ v, (deleteHandler (freshDb "n") 3 "k").2.1.storage.data "k" = some v ∧
      v.Deleted = true ∧ v.ModifiedBy = "n") ∧
    (getHandler (deleteHandler (freshDb "n") 3 "k").2.1 "k").1 =
      { Result := { HasValue := false, Value := [] }, Error := none } :=
  delete_then_get_absent (freshDb "n") 3 "k" rfl (fun _ => rfl)

/-! ### Version arithmetic (claim C7) -/

/-- `wrap64` is the identity on the int64 range. -/
theorem wrap64_eq_self {n : Int} (h1 : -(2 ^ 63) ≤ n) (h2 : n < 2 ^ 63) :
    wrap64 n = n := by
  unfold wrap64
  have hp : (2 : Int) ^ 64 = 2 ^ 63 + 2 ^ 63 := by norm_num
  have h3 : 0 ≤ n + 2 ^ 63 := by linarith
  have h4 : n + 2 ^ 63 < 2 ^ 64 := by linarith
  rw [Int.emod_eq_of_lt h3 h4]
  ring

/-- A successful Set turn on a backend whose relevant operations do not
fail: the new value is stored at the key and everything else is kept. -/
theorem setHandler_ok (db : Database) (now : Int) (key : String)
    (bytes : List Nat) (hg : db.storage.getErr key = none)
    (hs : ∀ v, db.storage.setErr key v = none) :
    setHandler db now key bytes =
      (none,
       { db with storage :=
          { db.storage with data := fun k =>
              if k = key then some (mkValue db now key bytes false)
              else db.storage.data k } },
       [.getCall key, .setCall key (mkValue db now key bytes false)]) := by
  rw [setHandler, newValue_of_getErr_none hg]
  simp [storSet, hs]

/-- Invariant of iterated local Sets on a fresh in-memory database: after
`n ≤ 2^63 - 1` writes the key holds version exactly `n` (and the backend
still never fails). -/
theorem iterSets_spec (nid : String) (now : Int) (key : String)
    (bytes : List Nat) :
    ∀ n : Nat, (n : Int) ≤ 2 ^ 63 - 1 →
      (iterSets (freshDb nid) now key bytes n).nodeID = nid ∧
      (iterSets (freshDb nid) now key bytes n).storage.getErr = (fun _ => none) ∧
      (iterSets (freshDb nid) now key bytes n).storage.setErr = (fun _ _ => none) ∧
      (iterSets (freshDb nid) now key bytes n).storage.data key =
        (if n = 0 then none
         else some { Version := (n : Int), ModifiedBy := nid, ModifiedAt := now,
                     Deleted := false, Content := bytes }) := by
  intro n
  induction n with
  | zero => intro _; exact ⟨rfl, rfl, rfl, rfl⟩
  | succ n ih =>
    intro hb
    have hb2 : (n : Int) ≤ 2 ^ 63 - 1 := by push_cast at hb ⊢; linarith
    obtain ⟨hnode, hge, hse, hdata⟩ := ih hb2
    have hg : (iterSets (freshDb nid) now key bytes n).storage.getErr key = none := by
      rw [hge]
    have hs : ∀ v, (iterSets (freshDb nid) now key bytes n).storage.setErr key v = none := by
      intro v; rw [hse]
    rw [iterSets, setHandler_ok _ _ _ _ hg hs]
    refine ⟨hnode, hge, hse, ?_⟩
    simp only [if_pos rfl, Nat.succ_ne_zero, if_neg (Nat.succ_ne_zero n)]
    rw [mkValue, hdata]
    by_cases hn : n = 0
    · subst hn; simp [hnode]
    · rw [if_neg hn]
      have h0 : (0 : Int) ≤ (n : Int) := Nat.cast_nonneg n
      have hp : (0 : Int) < 2 ^ 63 := by positivity
      have hb3 : (n : Int) + 1 ≤ 2 ^ 63 - 1 := by push_cast at hb; linarith
      have hw : wrap64 ((n : Int) + 1) = (n : Int) + 1 :=
        wrap64_eq_self (by linarith) (by linarith)
      simp [hw, hnode, Nat.cast_succ]

/-- Claim C7 counterexample: with version `2^63 - 1` (the largest int64)
stored under `"k"`, a local write produces version `-2^63`, not the stored
version plus one — Go's `value.Version + 1` (core.go:82) wraps around. -/
theorem newValue_version_wraps_at_max :
    (newValue
      { storage := memStor
          (fun k => if k = "k" then some ⟨2 ^ 63 - 1, "m", 0, false, []⟩ else none),
        nodeID := "n" } 7 "k" [1] false).1
      = .ok ⟨-(2 ^ 63), "n", 7, false, [1]⟩ ∧
    (-(2 ^ 63) : Int) ≠ 2 ^ 63 - 1 + 1 := by
  exact ⟨rfl, by decide⟩

/-- Claim C7 as amended: a local write produces version 1 when nothing is
stored for the key, the stored version plus one whenever the stored version
is an int64 below the maximum `2^63 - 1` (at the maximum it wraps to
`-2^63`), and consequently `n` successive local writes to one key from a
fresh database produce the versions 1, 2, 3, …, `n`, for any
`n ≤ 2^63 - 1`. -/
theorem newValue_version_increment :
    (∀ (db : Database) (now : Int) (key : String) (bytes : List Nat) (del : Bool),
      db.storage.getErr key = none →
        (db.storage.data key = none →
          (newValue db now key bytes del).1 =
            .ok { Version := 1, ModifiedBy := db.nodeID, ModifiedAt := now,
                  Deleted := del, Content := bytes }) ∧
        (∀ old, db.storage.data key = some old →
          (-(2 ^ 63) ≤ old.Version → old.Version < 2 ^ 63 - 1 →
            (newValue db now key bytes del).1 =
              .ok { Version := old.Version + 1, ModifiedBy := db.nodeID,
                    ModifiedAt := now, Deleted := del, Content := bytes }) ∧
          (old.Version = 2 ^ 63 - 1 →
            (newValue db now key bytes del).1 =
              .ok { Version := -(2 ^ 63), ModifiedBy := db.nodeID,
                    ModifiedAt := now, Deleted := del, Content := bytes }))) ∧
    (∀ (nid : String) (now : Int) (key : String) (bytes : List Nat) (n : Nat),
      1 ≤ n → (n : Int) ≤ 2 ^ 63 - 1 →
      (iterSets (freshDb nid) now key bytes n).storage.data key =
        some { Version := (n : Int), ModifiedBy := nid, ModifiedAt := now,
               Deleted := false, Content := bytes }) := by
  constructor
  · intro db now key bytes del hg
    refine ⟨fun hd => ?_, fun old hd => ⟨fun hlo hhi => ?_, fun hmax => ?_⟩⟩
    · rw [newValue_of_getErr_none hg]
      simp [mkValue, hd]
    · rw [newValue_of_getErr_none hg]
      have hw : wrap64 (old.Version + 1) = old.Version + 1 :=
        wrap64_eq_self (by linarith) (by linarith)
      simp [mkValue, hd, hw]
    · rw [newValue_of_getErr_none hg]
      have hw : wrap64 (old.Version + 1) = -(2 ^ 63) := by
        rw [hmax]; decide

      simp [mkValue, hd, hw]
  · intro nid now key bytes n h1 hb
    obtain ⟨-, -, -, hdata⟩ := iterSets_spec nid now key bytes n hb
    rw [hdata, if_neg (by omega)]

/-- Claim C7 witness: on a fresh database the first write to `"k"` has
version 1, and three successive writes leave version 3 stored. -/
theorem newValue_version_increment_witness :
    (newValue (freshDb "n") 0 "k" [1] false).1 =
      .ok { Version := 1, ModifiedBy := "n", ModifiedAt := 0,
            Deleted := false, Content := [1] } ∧
    (iterSets (freshDb "n") 0 "k" [1] 3).storage.data "k" =
      some { Version := 3, ModifiedBy := "n", ModifiedAt := 0,
             Deleted := false, Content := [1] } :=
  ⟨(newValue_version_increment.1 (freshDb "n") 0 "k" [1] false rfl).1 rfl,
   newValue_version_increment.2 "n" 0 "k" [1] 3 (by decide) (by decide)⟩

/-! ### Order lemmas for the conflict rule (claim C4) -/

/-- Elimination form of `lexLt` on two nonempty lists. -/
theorem lexLt_cons_true {a b : Char} {as bs : List Char}
    (h : lexLt (a :: as) (b :: bs) = true) :
    a.toNat < b.toNat ∨ (a.toNat = b.toNat ∧ lexLt as bs = true) := by
  simp only [lexLt] at h
  by_cases h1 : a.toNat < b.toNat
  · exact .inl h1
  · rw [if_neg h1] at h
    by_cases h2 : b.toNat < a.toNat
    · rw [if_pos h2] at h; exact absurd h (by simp)
    · rw [if_neg h2] at h; exact .inr ⟨by omega, h⟩

/-- Elimination form of a failed `lexLt` on two nonempty lists. -/
theorem lexLt_cons_false {a b : Char} {as bs : List Char}
    (h : lexLt (a :: as) (b :: bs) = false) :
    b.toNat < a.toNat ∨ (a.toNat = b.toNat ∧ lexLt as bs = false) := by
  simp only [lexLt] at h
  by_cases h1 : a.toNat < b.toNat
  · rw [if_pos h1] at h; exact absurd h (by simp)
  · rw [if_neg h1] at h
    by_cases h2 : b.toNat < a.toNat
    · exact .inl h2
    · rw [if_neg h2] at h; exact .inr ⟨by omega, h⟩

/-- Introduction form of `lexLt` with a strictly smaller head. -/
theorem lexLt_cons_of_lt {a b : Char} {as bs : List Char}
    (h : a.toNat < b.toNat) : lexLt (a :: as) (b :: bs) = true := by
  simp only [lexLt]; rw [if_pos h]

/-- Introduction form of `lexLt` with a strictly larger head. -/
theorem lexLt_cons_of_gt {a b : Char} {as bs : List Char}
    (h : b.toNat < a.toNat) : lexLt (a :: as) (b :: bs) = false := by
  simp only [lexLt]; rw [if_neg (by omega), if_pos h]

/-- With equal heads `lexLt` is decided by the tails. -/
theorem lexLt_cons_of_eq {a b : Char} {as bs : List Char}
    (h : a.toNat = b.toNat) : lexLt (a :: as) (b :: bs) = lexLt as bs := by
  simp only [lexLt]; rw [if_neg (by omega), if_neg (by omega)]

/-- `lexLt` is irreflexive. -/
theorem lexLt_irrefl (l : List Char) : lexLt l l = false := by
  induction l with
  | nil => rfl
  | cons a as ih => rw [lexLt_cons_of_eq rfl]; exact ih

/-- `lexLt` is transitive. -/
theorem lexLt_trans {l1 l2 l3 : List Char} (h1 : lexLt l1 l2 = true)
    (h2 : lexLt l2 l3 = true) : lexLt l1 l3 = true := by
  induction l1 generalizing l2 l3 with
  | nil =>
    cases l2 with
    | nil => exact absurd h1 (by simp [lexLt])
    | cons b bs =>
      cases l3 with
      | nil => exact absurd h2 (by simp [lexLt])
      | cons c cs => rfl
  | cons a as ih =>
    cases l2 with
    | nil => exact absurd h1 (by simp [lexLt])
    | cons b bs =>
      cases l3 with
      | nil => exact absurd h2 (by simp [lexLt])
      | cons c cs =>
        rcases lexLt_cons_true h1 with hab | ⟨hab, t1⟩ <;>
          rcases lexLt_cons_true h2 with hbc | ⟨hbc, t2⟩
        · exact lexLt_cons_of_lt (by omega)
        · exact lexLt_cons_of_lt (by omega)
        · exact lexLt_cons_of_lt (by omega)
        · rw [lexLt_cons_of_eq (by omega)]; exact ih t1 t2

/-- The negation of `lexLt` is transitive. -/
theorem lexLt_neg_trans {l1 l2 l3 : List Char} (h1 : lexLt l1 l2 = false)
    (h2 : lexLt l2 l3 = false) : lexLt l1 l3 = false := by
  induction l1 generalizing l2 l3 with
  | nil =>
    cases l2 with
    | cons b bs => exact absurd h1 (by simp [lexLt])
    | nil =>
      cases l3 with
      | cons c cs => exact absurd h2 (by simp [lexLt])
      | nil => rfl
  | cons a as ih =>
    cases l3 with
    | nil => rfl
    | cons c cs =>
      cases l2 with
      | nil => exact absurd h2 (by simp [lexLt])
      | cons b bs =>
        rcases lexLt_cons_false h1 with hab | ⟨hab, t1⟩ <;>
          rcases lexLt_cons_false h2 with hbc | ⟨hbc, t2⟩
        · exact lexLt_cons_of_gt (by omega)
        · exact lexLt_cons_of_gt (by omega)
        · exact lexLt_cons_of_gt (by omega)
        · rw [lexLt_cons_of_eq (by omega)]; exact ih t1 t2

/-- Two lists neither of which is `lexLt` the other are equal. -/
theorem lexLt_false_false_eq {l1 l2 : List Char} (h1 : lexLt l1 l2 = false)
    (h2 : lexLt l2 l1 = false) : l1 = l2 := by
  induction l1 generalizing l2 with
  | nil =>
    cases l2 with
    | nil => rfl
    | cons b bs => exact absurd h1 (by simp [lexLt])
  | cons a as ih =>
    cases l2 with
    | nil => exact absurd h2 (by simp [lexLt])
    | cons b bs =>
      rcases lexLt_cons_false h1 with hab | ⟨hab, t1⟩ <;>
        rcases lexLt_cons_false h2 with hba | ⟨hba, t2⟩
      · omega
      · omega
      · omega
      · have hchar : a = b := by
          have hv : a.val = b.val := UInt32.eq_of_val_eq (Fin.ext hab)
          cases a; cases b; simp_all
        rw [hchar, ih t1 t2]

/-- Two strings neither of which compares below the other are equal. -/
theorem strLtB_false_false_eq {a b : String} (h1 : strLtB a b = false)
    (h2 : strLtB b a = false) : a = b := by
  have hd : a.data = b.data := lexLt_false_false_eq h1 h2
  cases a; cases b; simp_all

/-- The conflict rule never prefers a value over itself. -/
theorem eicw_irrefl (v : Value) : existingIsConflictWinner v v = false := by
  simp only [existingIsConflictWinner, if_pos rfl]
  exact lexLt_irrefl v.ModifiedBy.data

/-- The conflict-winner relation is transitive. -/
theorem eicw_trans {a b c : Value} (h1 : existingIsConflictWinner a b = true)
    (h2 : existingIsConflictWinner b c = true) :
    existingIsConflictWinner a c = true := by
  unfold existingIsConflictWinner at h1 h2 ⊢
  by_cases hab : a.ModifiedAt = b.ModifiedAt <;>
    by_cases hbc : b.ModifiedAt = c.ModifiedAt
  · rw [if_pos hab] at h1; rw [if_pos hbc] at h2
    rw [if_pos (hab.trans hbc)]
    exact lexLt_trans h1 h2
  · rw [if_neg hbc] at h2
    rw [decide_eq_true_eq] at h2
    rw [if_neg (by omega), decide_eq_true_eq]
    omega
  · rw [if_neg hab] at h1
    rw [decide_eq_true_eq] at h1
    rw [if_neg (by omega), decide_eq_true_eq]
    omega
  · rw [if_neg hab] at h1; rw [if_neg hbc] at h2
    rw [decide_eq_true_eq] at h1 h2
    rw [if_neg (by omega), decide_eq_true_eq]
    omega

/-- The negation of the conflict-winner relation is transitive. -/
theorem eicw_neg_trans {a b c : Value}
    (h1 : existingIsConflictWinner a b = false)
    (h2 : existingIsConflictWinner b c = false) :
    existingIsConflictWinner a c = false := by
  unfold existingIsConflictWinner at h1 h2 ⊢
  by_cases hab : a.ModifiedAt = b.ModifiedAt <;>
    by_cases hbc : b.ModifiedAt = c.ModifiedAt
  · rw [if_pos hab] at h1; rw [if_pos hbc] at h2
    rw [if_pos (hab.trans hbc)]
    exact lexLt_neg_trans h1 h2
  · rw [if_neg hbc] at h2
    rw [decide_eq_false_iff_not] at h2
    rw [if_neg (by omega), decide_eq_false_iff_not]
    omega
  · rw [if_neg hab] at h1
    rw [decide_eq_false_iff_not] at h1
    rw [if_neg (by omega), decide_eq_false_iff_not]
    omega
  · rw [if_neg hab] at h1; rw [if_neg hbc] at h2
    rw [decide_eq_false_iff_not] at h1 h2
    rw [if_neg (by omega), decide_eq_false_iff_not]
    omega

/-- Two values neither of which beats the other under the conflict rule
agree on both conflict-relevant fields. -/
theorem eicw_false_false {a b : Value}
    (h1 : existingIsConflictWinner a b = false)
    (h2 : existingIsConflictWinner b a = false) :
    a.ModifiedAt = b.ModifiedAt ∧ a.ModifiedBy = b.ModifiedBy := by
  unfold existingIsConflictWinner at h1 h2
  by_cases hab : a.ModifiedAt = b.ModifiedAt
  · rw [if_pos hab] at h1; rw [if_pos hab.symm] at h2
    exact ⟨hab, strLtB_false_false_eq h1 h2⟩
  · rw [if_neg hab] at h1; rw [if_neg (by omega)] at h2
    rw [decide_eq_false_iff_not] at h1 h2
    omega

/-- Repeated application of `receiveStep` with the same incoming value is
the same as one application. -/
theorem receiveStep_idem (e : Option Value) (v : Value) :
    receiveStep (receiveStep e v) v = receiveStep e v := by
  cases e with
  | none => simp [receiveStep, eicw_irrefl]
  | some ex =>
    by_cases h : existingIsConflictWinner ex v = true
    · simp [receiveStep, h, eicw_irrefl]
    · simp [receiveStep, h]

/-- Characterization of the fold of `receiveStep`: the result is one of the
seed or the incoming values, and no value seen beats it under the
conflict-winner relation. -/
theorem foldRecv_spec (vs : List Value) (r0 : Value) :
    ∃ r, foldRecv (some r0) vs = some r ∧ r ∈ r0 :: vs ∧
      ∀ x ∈ r0 :: vs, existingIsConflictWinner r x = false := by
  induction vs generalizing r0 with
  | nil =>
    refine ⟨r0, rfl, List.mem_cons_self r0 [], ?_⟩
    intro x hx
    rw [List.mem_singleton.mp hx]
    exact eicw_irrefl r0
  | cons n vs ih =>
    have hfold : foldRecv (some r0) (n :: vs) =
        foldRecv (receiveStep (some r0) n) vs := by
      simp [foldRecv]
    by_cases h : existingIsConflictWinner r0 n = true
    · have hstep : receiveStep (some r0) n = some n := by simp [receiveStep, h]
      obtain ⟨r, hr, hmem, hmin⟩ := ih n
      refine ⟨r, by rw [hfold, hstep]; exact hr,
        List.mem_cons_of_mem r0 hmem, ?_⟩
      intro x hx
      rcases List.mem_cons.mp hx with rfl | hx2
      · by_contra hc
        have hc2 : existingIsConflictWinner r x = true := by
          revert hc; cases existingIsConflictWinner r x <;> simp
        have htr : existingIsConflictWinner r n = true := eicw_trans hc2 h
        have hfalse := hmin n (List.mem_cons_self n vs)
        rw [hfalse] at htr
        exact absurd htr (by simp)
      · exact hmin x hx2
    · have h2 : existingIsConflictWinner r0 n = false := by
        revert h; cases existingIsConflictWinner r0 n <;> simp
      have hstep : receiveStep (some r0) n = some r0 := by simp [receiveStep, h2]
      obtain ⟨r, hr, hmem, hmin⟩ := ih r0
      refine ⟨r, by rw [hfold, hstep]; exact hr, ?_, ?_⟩
      · rcases List.mem_cons.mp hmem with rfl | hx2
        · exact List.mem_cons_self _ _
        · exact List.mem_cons_of_mem _ (List.mem_cons_of_mem _ hx2)
      · intro x hx
        rcases List.mem_cons.mp hx with rfl | hx2
        · exact hmin x (List.mem_cons_self x vs)
        · rcases List.mem_cons.mp hx2 with rfl | hx3
          · exact eicw_neg_trans (hmin r0 (List.mem_cons_self r0 vs)) h2
          · exact hmin x (List.mem_cons_of_mem r0 hx3)

/-- Folding `receiveStep` over membership-equivalent lists whose values are
determined by their `(ModifiedAt, ModifiedBy)` stamps gives the same
result. -/
theorem foldRecv_converge {vs1 vs2 : List Value}
    (hmem : ∀ v, v ∈ vs1 ↔ v ∈ vs2)
    (hdist : ∀ v1 v2, v1 ∈ vs1 → v2 ∈ vs1 → v1.ModifiedAt = v2.ModifiedAt →
      v1.ModifiedBy = v2.ModifiedBy → v1 = v2) :
    foldRecv none vs1 = foldRecv none vs2 := by
  cases vs1 with
  | nil =>
    cases vs2 with
    | nil => rfl
    | cons b bs =>
      exact absurd ((hmem b).mpr (List.mem_cons_self b bs)) (List.not_mem_nil b)
  | cons a as =>
    cases vs2 with
    | nil =>
      exact absurd ((hmem a).mp (List.mem_cons_self a as)) (List.not_mem_nil a)
    | cons b bs =>
      have h1 : foldRecv none (a :: as) = foldRecv (some a) as := by
        simp [foldRecv, receiveStep]
      have h2 : foldRecv none (b :: bs) = foldRecv (some b) bs := by
        simp [foldRecv, receiveStep]
      obtain ⟨r1, hr1, hm1, hmin1⟩ := foldRecv_spec as a
      obtain ⟨r2, hr2, hm2, hmin2⟩ := foldRecv_spec bs b
      have hr1v2 : r1 ∈ b :: bs := (hmem r1).mp hm1
      have hr2v1 : r2 ∈ a :: as := (hmem r2).mpr hm2
      obtain ⟨hAt, hBy⟩ := eicw_false_false (hmin1 r2 hr2v1) (hmin2 r1 hr1v2)
      rw [h1, h2, hr1, hr2, hdist r1 r2 hm1 hr2v1 hAt hBy]

/-- Effect of one `handleReceive` on an in-memory database: the key's slot
is combined with the incoming value by `receiveStep`, the rest is kept. -/
theorem handleReceive_memStor (m : String → Option Value) (nid : String)
    (δ : Delta) :
    (handleReceive { storage := memStor m, nodeID := nid } δ).2.1 =
      { storage := memStor
          (fun k => if k = δ.Key then receiveStep (m δ.Key) δ.value else m k),
        nodeID := nid } := by
  cases hk : m δ.Key with
  | none =>
    simp [handleReceive, storGet, storSet, memStor, hk, receiveStep]
  | some e =>
    by_cases h : existingIsConflictWinner e δ.value = true
    · simp [handleReceive, storGet, storSet, memStor, hk, receiveStep, h]
    · have h2 : existingIsConflictWinner e δ.value = false := by
        revert h; cases existingIsConflictWinner e δ.value <;> simp
      simp only [handleReceive, storGet, storSet, memStor, hk, receiveStep, h2]
      refine congrArg (fun f => Database.mk (Stor.mk f (fun _ => none) (fun _ _ => none)) nid) ?_
      funext k
      by_cases hkk : k = δ.Key
      · subst hkk; rw [if_pos rfl, hk]; simp
      · rw [if_neg hkk]

/-- The stored value under a key after folding ReceiveRemote over
same-key deltas on an in-memory database is the `receiveStep` fold of their
values. -/
theorem applyReceives_memStor :
    ∀ (l : List Delta) (m : String → Option Value) (nid k : String),
      (∀ d ∈ l, d.Key = k) →
      (applyReceives { storage := memStor m, nodeID := nid } l).storage.data k =
        foldRecv (m k) (l.map (fun d => d.value)) := by
  intro l
  induction l with
  | nil => intro m nid k _; rfl
  | cons δ l ih =>
    intro m nid k hkeys
    have hδ : δ.Key = k := hkeys δ (List.mem_cons_self δ l)
    have hstep : applyReceives { storage := memStor m, nodeID := nid } (δ :: l) =
        applyReceives
          { storage := memStor
              (fun k2 => if k2 = δ.Key then receiveStep (m δ.Key) δ.value else m k2),
            nodeID := nid } l := by
      simp only [applyReceives, List.foldl_cons]
      rw [handleReceive_memStor]
    rw [hstep, ih _ nid k (fun d hd => hkeys d (List.mem_cons_of_mem δ hd))]
    simp only [List.map_cons]
    rw [hδ]
    simp [foldRecv]

/-- Receiving the same delta twice on an in-memory database is the same as
receiving it once. -/
theorem applyReceives_idem (m : String → Option Value) (nid : String)
    (δ : Delta) :
    applyReceives { storage := memStor m, nodeID := nid } [δ, δ] =
      applyReceives { storage := memStor m, nodeID := nid } [δ] := by
  simp only [applyReceives, List.foldl_cons, List.foldl_nil]
  rw [handleReceive_memStor, handleReceive_memStor]
  refine congrArg (fun f => Database.mk (Stor.mk f (fun _ => none) (fun _ _ => none)) nid) ?_
  funext k
  by_cases hkk : k = δ.Key
  · subst hkk
    simp only [if_pos rfl]
    exact receiveStep_idem _ _
  · simp only [if_neg hkk]

/-- Claim C4 counterexample: two deltas for `"k"` sharing both `ModifiedAt`
and `ModifiedBy` but carrying different payloads do not converge — the two
orders of the same two-element set of deltas leave different values stored,
because the conflict rule looks only at `ModifiedAt`/`ModifiedBy` and on a
full tie keeps whichever value arrived first. -/
theorem receive_order_dependent_on_full_tie :
    (applyReceives (freshDb "n")
        [⟨"k", ⟨1, "m", 0, false, [1]⟩⟩, ⟨"k", ⟨1, "m", 0, false, [2]⟩⟩]).storage.data "k"
      = some ⟨1, "m", 0, false, [1]⟩ ∧
    (applyReceives (freshDb "n")
        [⟨"k", ⟨1, "m", 0, false, [2]⟩⟩, ⟨"k", ⟨1, "m", 0, false, [1]⟩⟩]).storage.data "k"
      = some ⟨1, "m", 0, false, [2]⟩ ∧
    (⟨1, "m", 0, false, [1]⟩ : Value) ≠ ⟨1, "m", 0, false, [2]⟩ := by
  exact ⟨by decide, by decide, by decide⟩

/-- Claim C4 as amended: provided no two deltas of the set share both
`ModifiedAt` and `ModifiedBy` while differing elsewhere, applying the same
finite set of deltas for one key in any order and any number of repetitions
(membership-equivalent lists) to a fresh replica stores the identical final
value for that key; and receiving the same delta a second time on any
in-memory database leaves it exactly as after the first receipt. -/
theorem receive_convergent_of_distinct_stamps :
    (∀ (k nid : String) (l1 l2 : List Delta),
      (∀ d, d ∈ l1 ↔ d ∈ l2) →
      (∀ d ∈ l1, d.Key = k) →
      (∀ d1 d2, d1 ∈ l1 → d2 ∈ l1 →
        d1.value.ModifiedAt = d2.value.ModifiedAt →
        d1.value.ModifiedBy = d2.value.ModifiedBy → d1.value = d2.value) →
      (applyReceives (freshDb nid) l1).storage.data k =
        (applyReceives (freshDb nid) l2).storage.data k) ∧
    (∀ (m : String → Option Value) (nid : String) (δ : Delta),
      applyReceives { storage := memStor m, nodeID := nid } [δ, δ] =
        applyReceives { storage := memStor m, nodeID := nid } [δ]) := by
  constructor
  · intro k nid l1 l2 hmem hkey1 hdist
    have hkey2 : ∀ d ∈ l2, d.Key = k := fun d hd => hkey1 d ((hmem d).mpr hd)
    simp only [freshDb]
    rw [applyReceives_memStor l1 (fun _ => none) nid k hkey1,
        applyReceives_memStor l2 (fun _ => none) nid k hkey2]
    refine foldRecv_converge ?_ ?_
    · intro v
      constructor
      · intro hv
        obtain ⟨d, hd, rfl⟩ := List.mem_map.mp hv
        exact List.mem_map.mpr ⟨d, (hmem d).mp hd, rfl⟩
      · intro hv
        obtain ⟨d, hd, rfl⟩ := List.mem_map.mp hv
        exact List.mem_map.mpr ⟨d, (hmem d).mpr hd, rfl⟩
    · intro v1 v2 hv1 hv2 hAt hBy
      obtain ⟨d1, hd1, rfl⟩ := List.mem_map.mp hv1
      obtain ⟨d2, hd2, rfl⟩ := List.mem_map.mp hv2
      exact hdist d1 d2 hd1 hd2 hAt hBy
  · exact applyReceives_idem

/-- Claim C4 witness: two deltas with distinct timestamps applied in the
orders A-then-B and B-then-A-then-B (a reordering with a repetition)
store the same value, and a concrete double receipt equals the single
receipt. -/
theorem receive_convergent_witness :
    (applyReceives (freshDb "n")
        [⟨"k", ⟨1, "a", 1, false, [1]⟩⟩, ⟨"k", ⟨1, "b", 2, false, [2]⟩⟩]).storage.data "k"
      = (applyReceives (freshDb "n")
          [⟨"k", ⟨1, "b", 2, false, [2]⟩⟩, ⟨"k", ⟨1, "a", 1, false, [1]⟩⟩,
           ⟨"k", ⟨1, "b", 2, false, [2]⟩⟩]).storage.data "k" ∧
    applyReceives { storage := memStor (fun _ => none), nodeID := "n" }
        [⟨"k", ⟨1, "a", 1, false, [1]⟩⟩, ⟨"k", ⟨1, "a", 1, false, [1]⟩⟩]
      = applyReceives { storage := memStor (fun _ => none), nodeID := "n" }
        [⟨"k", ⟨1, "a", 1, false, [1]⟩⟩] := by
  constructor
  · refine receive_convergent_of_distinct_stamps.1 "k" "n" _ _ ?_ ?_ ?_
    · intro d
      simp only [List.mem_cons, List.not_mem_nil, or_false]
      tauto
    · intro d hd
      simp only [List.mem_cons, List.not_mem_nil, or_false] at hd
      rcases hd with rfl | rfl <;> rfl
    · intro d1 d2 h1 h2 hAt hBy
      simp only [List.mem_cons, List.not_mem_nil, or_false] at h1 h2
      rcases h1 with rfl | rfl <;> rcases h2 with rfl | rfl <;>
        first
        | rfl
        | (exfalso; revert hAt; decide)
  · exact receive_convergent_of_distinct_stamps.2 (fun _ => none) "n"
      ⟨"k", ⟨1, "a", 1, false, [1]⟩⟩

end Minidkvs
